import Mathlib

/-!
Shallow embedding of the IntentSim coherence-field engine.

Sources embedded here:
- `src/core/intentagent.ts`, `_updateFieldState` (clamped delta application on
  the agent-held field state; JavaScript number semantics for non-finite inputs
  are modelled by `JSNum`).
- `src/core/IntentField.ts` (the unnamed source file defining class
  `IntentField`): `activateOscillatoryBuffer`, `updateHarmonicMapping`,
  `_imprintMemory`, `_extractSymbolicMarkers`, `_updateSymbolicSignature`,
  `_getSymbolicTrends`, `_predictFieldDecay`, `_calculateInterference`.

Numeric values are modelled by `ℚ` (exact arithmetic); where a claim is about
JavaScript's non-finite numbers, the inductive `JSNum` (NaN, ±Infinity, finite
rational) is used together with JavaScript's `+`, `Math.min`, `Math.max`
semantics. JavaScript `Map`s are modelled by insertion-ordered association
lists, mirroring `Map.set` (update in place, append if new), `Map.delete` and
iteration order.
-/

namespace IntentSim

/-- JavaScript number, restricted to the distinctions the engine's control flow
can observe: NaN, +Infinity, -Infinity, or a finite value (modelled exactly by
a rational instead of a 64-bit float). -/
inductive JSNum where
  | nan : JSNum
  | inf : JSNum
  | ninf : JSNum
  | fin : ℚ → JSNum
deriving DecidableEq, Repr

/-- JavaScript `+` on `JSNum`: NaN propagates, `∞ + (-∞) = NaN`, infinities
absorb finite values. -/
def jsAdd : JSNum → JSNum → JSNum
  | .nan, _ => .nan
  | _, .nan => .nan
  | .inf, .ninf => .nan
  | .ninf, .inf => .nan
  | .inf, _ => .inf
  | _, .inf => .inf
  | .ninf, _ => .ninf
  | _, .ninf => .ninf
  | .fin a, .fin b => .fin (a + b)

/-- JavaScript `Math.min`: NaN if either argument is NaN, otherwise the
smaller value with `-∞` below and `+∞` above every finite value. -/
def jsMin : JSNum → JSNum → JSNum
  | .nan, _ => .nan
  | _, .nan => .nan
  | .ninf, _ => .ninf
  | _, .ninf => .ninf
  | .inf, b => b
  | a, .inf => a
  | .fin a, .fin b => .fin (min a b)

/-- JavaScript `Math.max`: NaN if either argument is NaN, otherwise the
larger value. -/
def jsMax : JSNum → JSNum → JSNum
  | .nan, _ => .nan
  | _, .nan => .nan
  | .inf, _ => .inf
  | _, .inf => .inf
  | .ninf, b => b
  | a, .ninf => a
  | .fin a, .fin b => .fin (max a b)

/-- Whether a `JSNum` is finite. -/
def JSNum.isFinite : JSNum → Bool
  | .fin _ => true
  | _ => false

/-- Whether a `JSNum` is a finite value inside the unit interval `[0,1]`. -/
def JSNum.inUnit : JSNum → Bool
  | .fin q => decide (0 ≤ q ∧ q ≤ 1)
  | _ => false

/-- The agent-held field state mutated by `_updateFieldState`
(`this.state.coherence` / `this.state.dissonance` in `intentagent.ts`). -/
structure AgentFieldState where
  coherence : JSNum
  dissonance : JSNum
deriving DecidableEq, Repr

/-- `FieldImpact` (src/types/field.ts): the delta an intent imparts. -/
structure FieldImpact where
  coherenceDelta : JSNum
  dissonanceDelta : JSNum
deriving DecidableEq, Repr

/-- `_updateFieldState` from `src/core/intentagent.ts` (lines 455-460):
`coherence = Math.max(0, Math.min(1, coherence + delta))` and likewise for
dissonance. -/
def updateFieldState (s : AgentFieldState) (fieldImpact : FieldImpact) : AgentFieldState :=
  { coherence :=
      jsMax (.fin 0) (jsMin (.fin 1) (jsAdd s.coherence fieldImpact.coherenceDelta)),
    dissonance :=
      jsMax (.fin 0) (jsMin (.fin 1) (jsAdd s.dissonance fieldImpact.dissonanceDelta)) }

/-! ## Association-list model of JavaScript `Map` -/

/-- `Map.get` / `Map.has`: first entry with the given key. -/
def mapLookup (m : List (String × β)) (k : String) : Option β :=
  match m with
  | [] => none
  | (k', v) :: rest => if k' = k then some v else mapLookup rest k

/-- `Map.set`: update the existing entry in place, else append at the end
(JavaScript `Map` insertion order). -/
def mapSet (m : List (String × β)) (k : String) (v : β) : List (String × β) :=
  match m with
  | [] => [(k, v)]
  | (k', v') :: rest => if k' = k then (k', v) :: rest else (k', v') :: mapSet rest k v

/-- `Map.delete`: remove the entry with the given key (maps hold at most one). -/
def mapDelete (m : List (String × β)) (k : String) : List (String × β) :=
  match m with
  | [] => []
  | (k', v') :: rest => if k' = k then rest else (k', v') :: mapDelete rest k

/-! ## Engine data model (src/types/field.ts, src/types/symbolic.ts) -/

/-- Trend of a tracked symbol (the string union used by `SymbolicStateEntry`). -/
inductive Trend where
  | increasing : Trend
  | decreasing : Trend
  | stable : Trend
  | emerging : Trend
deriving DecidableEq, Repr

/-- Phase of an `InterferencePattern` (string union in src/types/field.ts). -/
inductive Phase where
  | resonant : Phase
  | dissonant : Phase
  | neutral : Phase
deriving DecidableEq, Repr

/-- `FieldState` (src/types/field.ts): the coherence field's scalar state. -/
structure FieldState where
  coherence : ℚ
  dissonance : ℚ
deriving DecidableEq, Repr

/-- `SymbolicMarker`: a symbol extracted from an intent with its strength. -/
structure SymbolicMarker where
  symbol : String
  strength : ℚ
deriving DecidableEq, Repr

/-- `SymbolicStateEntry`: value of the `symbolicStateSignature` map. -/
structure SymbolicStateEntry where
  strength : ℚ
  trend : Trend
  lastUpdate : ℕ
deriving DecidableEq, Repr

/-- `ResonanceHistory` (src/types/field.ts): one entry of the resonance log. -/
structure ResonanceHistory where
  timestamp : ℕ
  intentSignature : String
  coherenceImpact : ℚ
  dissonanceImpact : ℚ
  fieldState : FieldState
  symbolicMarkers : List SymbolicMarker
deriving DecidableEq, Repr

/-- `DecayPrediction` (src/types/field.ts). `timeToThreshold = none` models the
JavaScript value `Infinity` returned by `_predictFieldDecay`; `some t` models a
finite time `t`. -/
structure DecayPrediction where
  projectedCoherence : ℚ
  decayRate : ℚ
  timeToThreshold : Option ℚ
deriving DecidableEq, Repr

/-- `InterferencePattern` (src/types/field.ts). -/
structure InterferencePattern where
  alignmentScore : ℚ
  interferenceScore : ℚ
  harmonicCoupling : ℚ
  phase : Phase
deriving DecidableEq, Repr

/-- Result of `_getSymbolicTrends`. -/
structure SymbolicTrends where
  dominant : Option (String × ℚ)
  rising : List (String × ℚ)
  falling : List (String × ℚ)
  strength : ℚ
deriving Repr

/-- The `oscillatoryBuffer` record of `IntentField`. -/
structure OscillatoryBuffer where
  active : Bool
  frequency : ℚ
  amplitude : ℚ
  phase : ℚ
  stabilizationFactor : ℚ
  harmonicMap : List (String × ℚ)
deriving DecidableEq, Repr

/-- The `symbolicStateSignature` map of `IntentField`. -/
abbrev SigMap := List (String × SymbolicStateEntry)

/-! ## IntentField methods -/

/-- `_getSymbolicTrends`: linear scan for the max-strength symbol (strict `>`
against a running maximum starting at 0), partition of entries by trend, each
partition sorted by strength descending. The JavaScript guard
`dominantSymbol ? {...} : null` treats the empty string as falsy. -/
def getSymbolicTrends (sig : SigMap) : SymbolicTrends :=
  let scan :=
    sig.foldl (fun acc p => if acc.2 < p.2.strength then (some p.1, p.2.strength) else acc)
      ((none : Option String), (0 : ℚ))
  let rising :=
    ((sig.filter fun p => p.2.trend = Trend.increasing).map fun p => (p.1, p.2.strength))
  let falling :=
    ((sig.filter fun p => p.2.trend = Trend.decreasing).map fun p => (p.1, p.2.strength))
  { dominant :=
      match scan.1 with
      | some s => if s = "" then none else some (s, scan.2)
      | none => none,
    rising := rising.mergeSort fun a b => decide (b.2 ≤ a.2),
    falling := falling.mergeSort fun a b => decide (b.2 ≤ a.2),
    strength := scan.2 }

/-- `activateOscillatoryBuffer(dissonanceLevel)`: activate (and retune) the
buffer when `dissonanceLevel > 0.5`, deactivate an active buffer when
`dissonanceLevel < 0.3`, otherwise leave it unchanged. Returns the new buffer
together with the method's boolean result. The harmonic modifier lookup
`harmonicMap.get(s) || 1` maps a stored factor of 0 to 1. -/
def activateOscillatoryBuffer (buf : OscillatoryBuffer) (sig : SigMap)
    (dissonanceLevel : ℚ) : OscillatoryBuffer × Bool :=
  if 0.5 < dissonanceLevel then
    let trends := getSymbolicTrends sig
    let dominantSymbol : Option String :=
      match trends.dominant with
      | some p => if p.1 = "" then none else some p.1
      | none => none
    let freq := 432 / (dissonanceLevel * 2)
    let freq :=
      match dominantSymbol with
      | some s =>
        if (mapLookup buf.harmonicMap s).isSome then
          let m := (mapLookup buf.harmonicMap s).getD 1
          freq * (if m = 0 then 1 else m)
        else freq
      | none => freq
    ({ active := true,
       frequency := freq,
       amplitude := dissonanceLevel * 0.5,
       phase := 0,
       stabilizationFactor := min 0.8 (dissonanceLevel * (1 + trends.strength)),
       harmonicMap := buf.harmonicMap }, true)
  else if buf.active = true ∧ dissonanceLevel < 0.3 then
    ({ buf with active := false }, false)
  else
    (buf, false)

/-- `updateHarmonicMapping(symbol, resonanceFactor)`: set the entry, then if
the map exceeds 20 entries delete the first-inserted key
(`Array.from(keys())[0]`). -/
def updateHarmonicMapping (m : List (String × ℚ)) (symbol : String)
    (resonanceFactor : ℚ) : List (String × ℚ) :=
  if 20 < (mapSet m symbol resonanceFactor).length then
    match (mapSet m symbol resonanceFactor).head? with
    | some e => mapDelete (mapSet m symbol resonanceFactor) e.1
    | none => mapSet m symbol resonanceFactor
  else mapSet m symbol resonanceFactor

/-- `_imprintMemory`: push the new entry, then `shift()` the oldest out while
the log length exceeds 100. -/
def imprintMemory (resonanceHistory : List ResonanceHistory)
    (memoryImprint : ResonanceHistory) : List ResonanceHistory :=
  if 100 < (resonanceHistory ++ [memoryImprint]).length then
    (resonanceHistory ++ [memoryImprint]).tail
  else resonanceHistory ++ [memoryImprint]

/-- Observable shape of an `Intent` (src/types/field.ts) as far as
`_extractSymbolicMarkers` can distinguish it. `text = some bs` models a
present `intent.text` where `bs` lists, in table order, which of the six fixed
regular expressions match the text (the regex engine itself is environmental);
`text = none` models an absent text. `type = none` models an absent or empty
(falsy) `intent.type`, `type = some t` a non-empty type string. -/
structure IntentObs where
  text : Option (List Bool)
  type : Option String

/-- The fixed `symbolPatterns` table of `_extractSymbolicMarkers`, reduced to
symbol and strength (the regex component is abstracted by `IntentObs.text`). -/
def symbolPatterns : List (String × ℚ) :=
  [("assistance", 0.7), ("creation", 0.8), ("analysis", 0.9),
   ("knowledge", 0.75), ("emotion", 0.6), ("connection", 0.65)]

/-- `_extractSymbolicMarkers`: one marker per matching text pattern, then the
lowercased intent type at strength 0.8, and the fallback
`{symbol: "neutral", strength: 0.3}` when nothing was produced. -/
def extractSymbolicMarkers (intent : IntentObs) : List SymbolicMarker :=
  let fromText : List SymbolicMarker :=
    match intent.text with
    | some bs =>
      (symbolPatterns.zip bs).filterMap fun pm =>
        if pm.2 then some ⟨pm.1.1, pm.1.2⟩ else none
    | none => []
  let withType : List SymbolicMarker :=
    match intent.type with
    | some t => fromText ++ [⟨t.toLower, 0.8⟩]
    | none => fromText
  if withType.isEmpty then [⟨"neutral", 0.3⟩] else withType

/-- First half of `_updateSymbolicSignature`: process one observed marker —
blend `newStrength = old*0.8 + observed*0.2` on an existing symbol with the
increasing/decreasing/stable trend rule, or insert a new symbol with trend
`emerging`. -/
def applyMarker (sig : SigMap) (now : ℕ) (marker : SymbolicMarker) : SigMap :=
  match mapLookup sig marker.symbol with
  | some current =>
    let newStrength := current.strength * 0.8 + marker.strength * 0.2
    let trend :=
      if current.strength < newStrength then Trend.increasing
      else if newStrength < current.strength then Trend.decreasing
      else Trend.stable
    mapSet sig marker.symbol ⟨newStrength, trend, now⟩
  | none =>
    mapSet sig marker.symbol ⟨marker.strength, Trend.emerging, now⟩

/-- Second half of `_updateSymbolicSignature`: every tracked symbol absent
from the current marker list decays by `*0.98`; entries dropping below 0.05
are deleted, the rest are kept with trend `decreasing`. -/
def decaySignature (sig : SigMap) (markers : List SymbolicMarker) (now : ℕ) : SigMap :=
  sig.filterMap fun p =>
    if markers.any fun m => m.symbol == p.1 then some p
    else
      let newStrength := p.2.strength * 0.98
      if newStrength < 0.05 then none
      else some (p.1, ⟨newStrength, Trend.decreasing, now⟩)

/-- `_updateSymbolicSignature` on an already-extracted marker list: update or
insert every observed marker in order, then run the decay pass over the
resulting map. -/
def updateSymbolicSignature (sig : SigMap) (markers : List SymbolicMarker)
    (now : ℕ) : SigMap :=
  decaySignature (markers.foldl (fun s m => applyMarker s now m) sig) markers now

/-- `_initializeSymbolicSignature`: the seven base symbols at strength 0.1,
trend `stable`. -/
def initialSymbolicSignature (now : ℕ) : SigMap :=
  [("harmony", ⟨0.1, Trend.stable, now⟩), ("clarity", ⟨0.1, Trend.stable, now⟩),
   ("depth", ⟨0.1, Trend.stable, now⟩), ("emergence", ⟨0.1, Trend.stable, now⟩),
   ("connection", ⟨0.1, Trend.stable, now⟩), ("autonomy", ⟨0.1, Trend.stable, now⟩),
   ("transcendence", ⟨0.1, Trend.stable, now⟩)]

/-- The symbolic-signature states reachable through the engine: the
initialized signature, followed by any number of `_updateSymbolicSignature`
steps on markers extracted from intents. -/
inductive ReachableSig : SigMap → Prop where
  | init (now : ℕ) : ReachableSig (initialSymbolicSignature now)
  | step (s : SigMap) (intent : IntentObs) (now : ℕ) (h : ReachableSig s) :
      ReachableSig (updateSymbolicSignature s (extractSymbolicMarkers intent) now)

/-- `_predictFieldDecay`: with fewer than 5 history entries, no prediction;
otherwise first-order extrapolation of the last 5 recorded coherence samples.
`field` is `this.coherenceField.getState()`. -/
def predictFieldDecay (resonanceHistory : List ResonanceHistory)
    (field : FieldState) : DecayPrediction :=
  if resonanceHistory.length < 5 then
    { projectedCoherence := field.coherence, decayRate := 0, timeToThreshold := none }
  else
    let recentStates := resonanceHistory.drop (resonanceHistory.length - 5)
    let coherenceTrend := recentStates.map fun state => state.fieldState.coherence
    let trendDirection :=
      coherenceTrend.getD (coherenceTrend.length - 1) 0 - coherenceTrend.getD 0 0
    let trendVelocity := trendDirection / ((recentStates.length : ℚ) - 1)
    let projectedCoherence := field.coherence + trendVelocity * 5
    let decayRate := if trendVelocity < 0 then |trendVelocity| else 0
    { projectedCoherence := max 0 (min 1 projectedCoherence),
      decayRate := decayRate,
      timeToThreshold :=
        if 0 < decayRate then some ((field.coherence - 0.5) / decayRate) else none }

/-- `_calculateInterference`: alignment, interference, gated harmonic
coupling, and the resonant/dissonant/neutral phase classification. -/
def calculateInterference (agentState fieldState : FieldState) : InterferencePattern :=
  let alignmentScore := 1 - |agentState.coherence - fieldState.coherence|
  let interferenceScore := |agentState.dissonance - fieldState.dissonance|
  let harmonicCoupling :=
    if 0.8 < alignmentScore then alignmentScore * (1 - interferenceScore) else 0
  { alignmentScore := alignmentScore,
    interferenceScore := interferenceScore,
    harmonicCoupling := harmonicCoupling,
    phase :=
      if 0.7 < harmonicCoupling then Phase.resonant
      else if 0.7 < interferenceScore then Phase.dissonant
      else Phase.neutral }

/-! ## Helper lemmas -/

theorem JSNum.isFinite_of_inUnit {x : JSNum} (h : x.inUnit = true) :
    x.isFinite = true := by
  cases x <;> simp_all [JSNum.inUnit, JSNum.isFinite]

theorem inUnit_clamp {c d : JSNum} (hc : c.isFinite = true) (hd : d.isFinite = true) :
    (jsMax (.fin 0) (jsMin (.fin 1) (jsAdd c d))).inUnit = true := by
  cases c with
  | fin a =>
    cases d with
    | fin b =>
      simp only [jsAdd, jsMin, jsMax, JSNum.inUnit, decide_eq_true_eq]
      exact ⟨le_max_left _ _, max_le (by norm_num) (min_le_left _ _)⟩
    | nan => simp [JSNum.isFinite] at hd
    | inf => simp [JSNum.isFinite] at hd
    | ninf => simp [JSNum.isFinite] at hd
  | nan => simp [JSNum.isFinite] at hc
  | inf => simp [JSNum.isFinite] at hc
  | ninf => simp [JSNum.isFinite] at hc

theorem foldl_updateFieldState_inUnit :
    ∀ (impacts : List FieldImpact) (s0 : AgentFieldState),
      s0.coherence.inUnit = true → s0.dissonance.inUnit = true →
      (∀ i ∈ impacts, i.coherenceDelta.isFinite = true ∧ i.dissonanceDelta.isFinite = true) →
      (impacts.foldl updateFieldState s0).coherence.inUnit = true ∧
        (impacts.foldl updateFieldState s0).dissonance.inUnit = true := by
  intro impacts
  induction impacts with
  | nil => intro s0 h0 h1 _; exact ⟨h0, h1⟩
  | cons i rest ih =>
    intro s0 h0 h1 hfin
    have hi := hfin i (List.mem_cons_self i rest)
    have hc : (updateFieldState s0 i).coherence.inUnit = true :=
      inUnit_clamp (JSNum.isFinite_of_inUnit h0) hi.1
    have hd : (updateFieldState s0 i).dissonance.inUnit = true :=
      inUnit_clamp (JSNum.isFinite_of_inUnit h1) hi.2
    simpa using ih (updateFieldState s0 i) hc hd
      (fun j hj => hfin j (List.mem_cons_of_mem i hj))

/-! ## C1 -/

/-- C1: starting from a field state with coherence and dissonance in `[0,1]`,
after applying any number of finite impact deltas through
`_updateFieldState`, both coherence and dissonance are still finite values in
`[0,1]` (the `take n` prefix expresses "after every application"). -/
theorem c1_field_state_clamped (s0 : AgentFieldState) (impacts : List FieldImpact)
    (h0 : s0.coherence.inUnit = true) (h1 : s0.dissonance.inUnit = true)
    (hfin : ∀ i ∈ impacts,
      i.coherenceDelta.isFinite = true ∧ i.dissonanceDelta.isFinite = true) :
    ∀ n : ℕ,
      ((impacts.take n).foldl updateFieldState s0).coherence.inUnit = true ∧
        ((impacts.take n).foldl updateFieldState s0).dissonance.inUnit = true := by
  intro n
  exact foldl_updateFieldState_inUnit (impacts.take n) s0 h0 h1
    (fun j hj => hfin j (List.take_subset n impacts hj))

/-- Witness for C1 at a concrete state and impact sequence. -/
theorem c1_field_state_clamped_witness :
    ((([⟨.fin 0.05, .fin (-0.02)⟩] : List FieldImpact).take 1).foldl updateFieldState
        ⟨.fin 0.8, .fin 0.2⟩).coherence.inUnit = true ∧
      ((([⟨.fin 0.05, .fin (-0.02)⟩] : List FieldImpact).take 1).foldl updateFieldState
        ⟨.fin 0.8, .fin 0.2⟩).dissonance.inUnit = true :=
  c1_field_state_clamped ⟨.fin 0.8, .fin 0.2⟩ [⟨.fin 0.05, .fin (-0.02)⟩]
    (by norm_num [JSNum.inUnit]) (by norm_num [JSNum.inUnit])
    (fun i hi => by simp only [List.mem_singleton] at hi; subst hi; exact ⟨rfl, rfl⟩) 1

/-! ## C2 -/

/-- C2 counterexample: a NaN `coherenceDelta` is not rejected —
`_updateFieldState` silently writes NaN into the coherence component and the
state does change, so no `InvalidDelta` error path exists. -/
theorem c2_nan_counterexample :
    (updateFieldState ⟨.fin 0.8, .fin 0.2⟩ ⟨.nan, .fin 0⟩).coherence = JSNum.nan ∧
      updateFieldState ⟨.fin 0.8, .fin 0.2⟩ ⟨.nan, .fin 0⟩ ≠ ⟨.fin 0.8, .fin 0.2⟩ := by
  refine ⟨rfl, fun h => ?_⟩
  have h2 : JSNum.nan = JSNum.fin 0.8 := congrArg AgentFieldState.coherence h
  exact JSNum.noConfusion h2

/-- C2 amended: `_updateFieldState` never rejects a non-finite delta. A `+∞`
delta is clamped to coherence 1, a `-∞` delta to coherence 0, and a NaN delta
propagates NaN into the stored coherence. -/
theorem c2_nonfinite_not_rejected (s : AgentFieldState) (q : ℚ) (d : JSNum)
    (h : s.coherence = .fin q) :
    (updateFieldState s ⟨.inf, d⟩).coherence = .fin 1 ∧
      (updateFieldState s ⟨.ninf, d⟩).coherence = .fin 0 ∧
      (updateFieldState s ⟨.nan, d⟩).coherence = JSNum.nan := by
  simp only [updateFieldState, h]
  refine ⟨?_, ?_, ?_⟩ <;> simp [jsAdd, jsMin, jsMax]

/-- Witness for the amended C2 at a concrete state. -/
theorem c2_nonfinite_not_rejected_witness :
    (updateFieldState ⟨.fin 0.5, .fin 0.5⟩ ⟨.inf, .fin 0⟩).coherence = .fin 1 ∧
      (updateFieldState ⟨.fin 0.5, .fin 0.5⟩ ⟨.ninf, .fin 0⟩).coherence = .fin 0 ∧
      (updateFieldState ⟨.fin 0.5, .fin 0.5⟩ ⟨.nan, .fin 0⟩).coherence = JSNum.nan :=
  c2_nonfinite_not_rejected ⟨.fin 0.5, .fin 0.5⟩ 0.5 (.fin 0) rfl

/-! ## C3 -/

/-- C3: hysteresis of `activateOscillatoryBuffer`. From inactive the buffer
becomes active iff `dissonance > 0.5`; from active it becomes inactive iff
`dissonance < 0.3`; while active with dissonance in `[0.3, 0.5]` it stays
active. -/
theorem c3_buffer_hysteresis (buf : OscillatoryBuffer) (sig : SigMap) (d : ℚ) :
    (buf.active = false →
      (((activateOscillatoryBuffer buf sig d).1.active = true) ↔ 0.5 < d)) ∧
    (buf.active = true →
      (((activateOscillatoryBuffer buf sig d).1.active = false) ↔ d < 0.3)) ∧
    (buf.active = true → 0.3 ≤ d → d ≤ 0.5 →
      (activateOscillatoryBuffer buf sig d).1.active = true) := by
  have hch : (activateOscillatoryBuffer buf sig d).1.active =
      (if 0.5 < d then true
       else if buf.active = true ∧ d < 0.3 then false else buf.active) := by
    unfold activateOscillatoryBuffer
    split_ifs <;> rfl
  refine ⟨fun hfalse => ?_, fun htrue => ?_, fun htrue h3 h5 => ?_⟩
  · rw [hfalse] at hch
    rw [hch]
    split_ifs with h1 h2
    · simp [h1]
    · exact absurd h2.1 (by simp)
    · simpa using h1
  · rw [htrue] at hch
    rw [hch]
    split_ifs with h1 h2
    · simp only [Bool.true_eq_false, false_iff]
      intro hlt; linarith
    · simpa using h2.2
    · simp only [Bool.true_eq_false, false_iff]
      intro hlt
      exact h2 ⟨rfl, hlt⟩
  · rw [htrue] at hch
    rw [hch]
    split_ifs with h1 h2
    · rfl
    · exfalso; linarith [h2.2]
    · rfl

/-- Witness for C3: from an inactive buffer, feeding dissonance 0.8
activates it. -/
theorem c3_buffer_hysteresis_witness :
    (activateOscillatoryBuffer ⟨false, 432, 0, 0, 0, []⟩ [] 0.8).1.active = true :=
  ((c3_buffer_hysteresis ⟨false, 432, 0, 0, 0, []⟩ [] 0.8).1 rfl).mpr (by norm_num)

/-! ## C9 -/

theorem foldl_imprintMemory_eq_drop (xs : List ResonanceHistory) :
    xs.foldl imprintMemory [] = xs.drop (xs.length - 100) := by
  induction xs using List.reverseRecOn with
  | nil => rfl
  | append_singleton ys a ih =>
    rw [List.foldl_append, List.foldl_cons, List.foldl_nil, ih]
    unfold imprintMemory
    by_cases h : ys.length < 100
    · have h0 : ys.length - 100 = 0 := by omega
      have h1 : (ys ++ [a]).length - 100 = 0 := by simp; omega
      rw [h0, h1, List.drop_zero, List.drop_zero]
      split_ifs with hif
      · exfalso; simp at hif; omega
      · rfl
    · push_neg at h
      have hne : ys.drop (ys.length - 100) ≠ [] := by
        intro hnil
        have := congrArg List.length hnil
        simp at this
        omega
      split_ifs with hif
      · rw [List.tail_append_singleton_of_ne_nil hne, List.tail_drop]
        have harith : (ys ++ [a]).length - 100 = ys.length - 100 + 1 := by simp; omega
        rw [harith, List.drop_append_of_le_length (by omega)]
      · exfalso
        simp only [List.length_append, List.length_drop, List.length_singleton] at hif
        omega

/-- C9: the resonance history log kept by `_imprintMemory` never exceeds 100
entries, and recording 150 entries leaves exactly the last 100 in their
original order. -/
theorem c9_history_fifo :
    (∀ entries : List ResonanceHistory,
      (entries.foldl imprintMemory []).length ≤ 100) ∧
    (∀ entries : List ResonanceHistory, entries.length = 150 →
      entries.foldl imprintMemory [] = entries.drop 50) := by
  constructor
  · intro entries
    rw [foldl_imprintMemory_eq_drop]
    simp only [List.length_drop]
    omega
  · intro entries h
    rw [foldl_imprintMemory_eq_drop, h]

/-- Witness for C9 on a concrete 150-entry log. -/
theorem c9_history_fifo_witness :
    (((List.range 150).map fun i =>
        (⟨i, "intent:general", 0, 0, ⟨0.5, 0.2⟩, []⟩ : ResonanceHistory)).foldl
      imprintMemory []) =
      (((List.range 150).map fun i =>
        (⟨i, "intent:general", 0, 0, ⟨0.5, 0.2⟩, []⟩ : ResonanceHistory)).drop 50) :=
  c9_history_fifo.2 _ (by simp)

/-! ## C8 -/

theorem mapSet_length_le {β : Type} (m : List (String × β)) (k : String) (v : β) :
    (mapSet m k v).length ≤ m.length + 1 := by
  induction m with
  | nil => simp [mapSet]
  | cons p rest ih =>
    obtain ⟨k', v'⟩ := p
    simp only [mapSet]
    split_ifs
    · simp only [List.length_cons]
      omega
    · simp only [List.length_cons]
      omega

theorem mapLookup_eq_none_iff {β : Type} (m : List (String × β)) (k : String) :
    mapLookup m k = none ↔ k ∉ m.map Prod.fst := by
  induction m with
  | nil => simp [mapLookup]
  | cons p rest ih =>
    obtain ⟨k', v'⟩ := p
    simp only [mapLookup, List.map_cons, List.mem_cons]
    split_ifs with h
    · simp [h]
    · simpa [Ne.symm h] using ih

theorem mapSet_of_not_mem {β : Type} {m : List (String × β)} {k : String} (v : β)
    (h : k ∉ m.map Prod.fst) : mapSet m k v = m ++ [(k, v)] := by
  induction m with
  | nil => simp [mapSet]
  | cons p rest ih =>
    obtain ⟨k', v'⟩ := p
    simp only [List.map_cons, List.mem_cons] at h
    push_neg at h
    simp only [mapSet, if_neg (Ne.symm h.1), List.cons_append]
    rw [ih h.2]

/-- `updateHarmonicMapping` deletes exactly the head entry when the map grows
past 20 entries: `Array.from(keys())[0]` is the key of the first entry, so the
`delete` removes the head. -/
theorem updateHarmonicMapping_eq (m : List (String × ℚ)) (symbol : String)
    (resonanceFactor : ℚ) :
    updateHarmonicMapping m symbol resonanceFactor =
      if 20 < (mapSet m symbol resonanceFactor).length then
        (mapSet m symbol resonanceFactor).tail
      else mapSet m symbol resonanceFactor := by
  unfold updateHarmonicMapping
  rcases h : mapSet m symbol resonanceFactor with _ | ⟨⟨a, b⟩, rest⟩
  · rfl
  · split_ifs
    · simp [mapDelete]
    · rfl

theorem updateHarmonicMapping_length {m : List (String × ℚ)} {symbol : String}
    {resonanceFactor : ℚ} (h : m.length ≤ 20) :
    (updateHarmonicMapping m symbol resonanceFactor).length ≤ 20 := by
  rw [updateHarmonicMapping_eq]
  have hle := mapSet_length_le m symbol resonanceFactor
  split_ifs with hgt
  · simp only [List.length_tail]
    omega
  · omega

theorem foldl_updateHarmonicMapping_length :
    ∀ (calls : List (String × ℚ)) (m : List (String × ℚ)), m.length ≤ 20 →
      (calls.foldl (fun acc c => updateHarmonicMapping acc c.1 c.2) m).length ≤ 20 := by
  intro calls
  induction calls with
  | nil => intro m h; exact h
  | cons c rest ih =>
    intro m h
    exact ih (updateHarmonicMapping m c.1 c.2) (updateHarmonicMapping_length h)

theorem foldl_updateHarmonicMapping_fresh :
    ∀ (calls : List (String × ℚ)) (m : List (String × ℚ)),
      (m.map Prod.fst ++ calls.map Prod.fst).Nodup → m.length + calls.length ≤ 20 →
      calls.foldl (fun acc c => updateHarmonicMapping acc c.1 c.2) m = m ++ calls := by
  intro calls
  induction calls with
  | nil => intro m _ _; simp
  | cons c rest ih =>
    intro m hnd hlen
    have hsplit := List.nodup_append.mp hnd
    have hknotin : c.1 ∉ m.map Prod.fst := fun hin =>
      hsplit.2.2 hin (List.mem_cons_self _ _)
    have hstep : updateHarmonicMapping m c.1 c.2 = m ++ [c] := by
      have hno : ¬ 20 < (m ++ [(c.1, c.2)]).length := by
        simp at hlen ⊢
        omega
      rw [updateHarmonicMapping_eq, mapSet_of_not_mem c.2 hknotin, if_neg hno]
    have hnd' : ((m ++ [c]).map Prod.fst ++ rest.map Prod.fst).Nodup := by
      simpa [List.append_assoc] using hnd
    have hlen' : (m ++ [c]).length + rest.length ≤ 20 := by
      simp at hlen ⊢
      omega
    rw [List.foldl_cons, hstep, ih (m ++ [c]) hnd' hlen']
    simp

/-- C8: for every sequence of `updateHarmonicMapping` calls starting from the
empty map, the harmonic map holds at most 20 entries after each call, and a
sequence of 21 calls with distinct symbols leaves exactly the last 20 inserted
entries: the first-inserted entry is the one evicted. -/
theorem c8_harmonic_map_bounded :
    (∀ calls : List (String × ℚ),
      (calls.foldl (fun acc c => updateHarmonicMapping acc c.1 c.2) []).length ≤ 20) ∧
    (∀ calls : List (String × ℚ), calls.length = 21 → (calls.map Prod.fst).Nodup →
      calls.foldl (fun acc c => updateHarmonicMapping acc c.1 c.2) [] = calls.drop 1) := by
  constructor
  · intro calls
    exact foldl_updateHarmonicMapping_length calls [] (by simp)
  · intro calls hlen hnd
    rcases List.eq_nil_or_concat calls with rfl | ⟨qs, c, rfl⟩
    · simp at hlen
    · rw [List.concat_eq_append] at hlen hnd ⊢
      have hqs : qs.length = 20 := by simp at hlen; omega
      rw [List.map_append] at hnd
      have hqsnd := List.nodup_append.mp hnd
      rw [List.foldl_append, List.foldl_cons, List.foldl_nil]
      rw [foldl_updateHarmonicMapping_fresh qs [] (by simpa using hqsnd.1)
        (by simp [hqs])]
      simp only [List.nil_append]
      have hcnotin : c.1 ∉ qs.map Prod.fst := fun hin => hqsnd.2.2 hin (by simp)
      rw [updateHarmonicMapping_eq, mapSet_of_not_mem c.2 hcnotin,
        if_pos (by simp [hqs])]
      rcases qs with _ | ⟨q0, qs'⟩
      · simp at hqs
      · simp

/-- Witness for C8 on 21 concrete distinct symbols. -/
theorem c8_harmonic_map_bounded_witness :
    ((([("a", 1), ("b", 1), ("c", 1), ("d", 1), ("e", 1), ("f", 1), ("g", 1),
        ("h", 1), ("i", 1), ("j", 1), ("k", 1), ("l", 1), ("m", 1), ("n", 1),
        ("o", 1), ("p", 1), ("q", 1), ("r", 1), ("s", 1), ("t", 1), ("u", 1)] :
        List (String × ℚ)).foldl (fun acc c => updateHarmonicMapping acc c.1 c.2) []) =
      (([("a", 1), ("b", 1), ("c", 1), ("d", 1), ("e", 1), ("f", 1), ("g", 1),
         ("h", 1), ("i", 1), ("j", 1), ("k", 1), ("l", 1), ("m", 1), ("n", 1),
         ("o", 1), ("p", 1), ("q", 1), ("r", 1), ("s", 1), ("t", 1), ("u", 1)] :
         List (String × ℚ)).drop 1)) :=
  c8_harmonic_map_bounded.2 _ (by rfl) (by decide)

/-! ## C4 -/

theorem getD_zero_eq_head {α : Type} (l : List α) (d : α) :
    l.getD 0 d = l.head?.getD d := by
  cases l <;> rfl

theorem getD_last_eq_getLast {α : Type} (l : List α) (d : α) (h : l ≠ []) :
    l.getD (l.length - 1) d = l.getLast?.getD d := by
  induction l with
  | nil => exact absurd rfl h
  | cons a t ih =>
    cases t with
    | nil => rfl
    | cons b t2 =>
      rw [List.getLast?_cons_cons]
      have h1 : (a :: b :: t2).length - 1 = (b :: t2).length - 1 + 1 := by
        simp
      rw [h1, List.getD_cons_succ]
      exact ih (by simp)

theorem if_abs_eq_max_neg (v : ℚ) : (if v < 0 then |v| else 0) = max 0 (-v) := by
  split_ifs with hv
  · rw [abs_of_neg hv, max_eq_right]
    linarith
  · push_neg at hv
    rw [max_eq_left]
    linarith

/-- A history entry carrying the given field-coherence sample. -/
def sampleEntry (c : ℚ) : ResonanceHistory :=
  ⟨0, "intent:general", 0, 0, ⟨c, 0.2⟩, []⟩

/-- The monotonic-decline sample history named by the spec. -/
def declineHistory : List ResonanceHistory :=
  [sampleEntry 0.9, sampleEntry 0.85, sampleEntry 0.8, sampleEntry 0.75, sampleEntry 0.7]

/-- The decay prediction exactly as the spec words it: with fewer than 5
history entries, no prediction (`decayRate = 0`, infinite `timeToThreshold`);
otherwise take the last 5 coherence samples, `velocity = (last - first) / 4`,
`projectedCoherence = clamp(currentCoherence + velocity*5, 0, 1)`,
`decayRate = max(0, -velocity)`, and
`timeToThreshold = (currentCoherence - 0.5) / decayRate` when `decayRate > 0`,
else infinite. Spec-side restatement, to be compared with
`predictFieldDecay`. -/
def specDecayPrediction (hist : List ResonanceHistory) (field : FieldState) :
    DecayPrediction :=
  if hist.length < 5 then
    { projectedCoherence := field.coherence, decayRate := 0, timeToThreshold := none }
  else
    let samples := (hist.drop (hist.length - 5)).map fun state => state.fieldState.coherence
    let velocity := (samples.getLast?.getD 0 - samples.head?.getD 0) / 4
    { projectedCoherence := max 0 (min 1 (field.coherence + velocity * 5)),
      decayRate := max 0 (-velocity),
      timeToThreshold :=
        if 0 < max 0 (-velocity) then some ((field.coherence - 0.5) / max 0 (-velocity))
        else none }

/-- C4: `_predictFieldDecay` computes exactly the prediction the spec
describes, and on the samples `[0.9, 0.85, 0.8, 0.75, 0.7]` the decay rate is
0.05. -/
theorem c4_decay_predictor_correct :
    (∀ (hist : List ResonanceHistory) (field : FieldState),
      predictFieldDecay hist field = specDecayPrediction hist field) ∧
    (predictFieldDecay declineHistory ⟨0.7, 0.2⟩).decayRate = 0.05 := by
  constructor
  · intro hist field
    by_cases h : hist.length < 5
    · simp only [predictFieldDecay, specDecayPrediction, if_pos h]
    · have hlen5 : (hist.drop (hist.length - 5)).length = 5 := by
        simp only [List.length_drop]
        omega
      have hctlen :
          ((hist.drop (hist.length - 5)).map fun s => s.fieldState.coherence).length = 5 := by
        rw [List.length_map]
        exact hlen5
      have hctne :
          ((hist.drop (hist.length - 5)).map fun s => s.fieldState.coherence) ≠ [] := by
        intro hnil
        rw [hnil] at hctlen
        simp at hctlen
      simp only [predictFieldDecay, specDecayPrediction, if_neg h]
      rw [getD_last_eq_getLast _ _ hctne, getD_zero_eq_head, hlen5, if_abs_eq_max_neg]
      norm_num
  · norm_num [predictFieldDecay, declineHistory, sampleEntry]

/-! ## C10 -/

/-- A reachable declining history whose field coherence sits below the 0.5
threshold. -/
def lowCoherenceHistory : List ResonanceHistory :=
  [sampleEntry 0.5, sampleEntry 0.4, sampleEntry 0.3, sampleEntry 0.2, sampleEntry 0.1]

/-- C10 counterexample: on a declining history with current coherence 0.1
(itself producible by the engine's clamped update, third conjunct), the
predictor returns the finite negative `timeToThreshold = -4`, violating
"`timeToThreshold ≥ 0` or `+∞`". -/
theorem c10_negative_time_counterexample :
    (predictFieldDecay lowCoherenceHistory ⟨0.1, 0.2⟩).timeToThreshold = some (-4) ∧
    ((-4 : ℚ) < 0) ∧
    (updateFieldState ⟨.fin 0.8, .fin 0.2⟩ ⟨.fin (-0.7), .fin 0⟩).coherence = .fin 0.1 := by
  refine ⟨?_, by norm_num, ?_⟩
  · norm_num [predictFieldDecay, lowCoherenceHistory, sampleEntry, abs_of_pos]
  · simp only [updateFieldState, jsAdd, jsMin, jsMax]
    norm_num

/-- C10 amended: every prediction has `projectedCoherence ∈ [0,1]` and
`decayRate ≥ 0`; `timeToThreshold`, when finite, is nonnegative provided the
current coherence is at least the 0.5 threshold (below the threshold it can be
negative, as the counterexample shows). -/
theorem c10_prediction_bounds (hist : List ResonanceHistory) (field : FieldState)
    (h0 : 0 ≤ field.coherence) (h1 : field.coherence ≤ 1) :
    0 ≤ (predictFieldDecay hist field).projectedCoherence ∧
    (predictFieldDecay hist field).projectedCoherence ≤ 1 ∧
    0 ≤ (predictFieldDecay hist field).decayRate ∧
    (0.5 ≤ field.coherence →
      ∀ t, (predictFieldDecay hist field).timeToThreshold = some t → 0 ≤ t) := by
  by_cases h : hist.length < 5
  · simp only [predictFieldDecay, if_pos h]
    exact ⟨h0, h1, le_refl 0, fun _ t ht => by simp at ht⟩
  · simp only [predictFieldDecay, if_neg h]
    refine ⟨le_max_left _ _, max_le (by norm_num) (min_le_left _ _), ?_, ?_⟩
    · split_ifs with hv
      · exact abs_nonneg _
      · exact le_refl 0
    · intro hthr t ht
      rw [if_abs_eq_max_neg] at ht
      split_ifs at ht with hdr
      · simp only [Option.some_inj] at ht
        subst ht
        apply div_nonneg
        · linarith
        · exact le_of_lt hdr

/-- Witness for the amended C10 at a concrete state. -/
theorem c10_prediction_bounds_witness :
    0 ≤ (predictFieldDecay [] ⟨0.6, 0.2⟩).projectedCoherence ∧
    (predictFieldDecay [] ⟨0.6, 0.2⟩).projectedCoherence ≤ 1 ∧
    0 ≤ (predictFieldDecay [] ⟨0.6, 0.2⟩).decayRate ∧
    (0.5 ≤ (FieldState.mk 0.6 0.2).coherence →
      ∀ t, (predictFieldDecay [] ⟨0.6, 0.2⟩).timeToThreshold = some t → 0 ≤ t) :=
  c10_prediction_bounds [] ⟨0.6, 0.2⟩ (by norm_num) (by norm_num)

/-! ## C5 -/

/-- C5: `_calculateInterference` computes the spec's alignment, interference
and gated-coupling formulas; the phase is `resonant` when the coupling exceeds
0.7, `dissonant` when the interference exceeds 0.7 (the two cannot overlap),
and `neutral` otherwise; and on the identical states
`{coherence: 0.9, dissonance: 0.1}` it returns alignment 1, interference 0,
coupling 1, phase resonant. -/
theorem c5_interference_correct (agent field : FieldState)
    (ha0 : 0 ≤ agent.coherence) (ha1 : agent.coherence ≤ 1)
    (ha2 : 0 ≤ agent.dissonance) (ha3 : agent.dissonance ≤ 1)
    (hf0 : 0 ≤ field.coherence) (hf1 : field.coherence ≤ 1)
    (hf2 : 0 ≤ field.dissonance) (hf3 : field.dissonance ≤ 1) :
    (calculateInterference agent field).alignmentScore =
      1 - |agent.coherence - field.coherence| ∧
    (calculateInterference agent field).interferenceScore =
      |agent.dissonance - field.dissonance| ∧
    (calculateInterference agent field).harmonicCoupling =
      (if 0.8 < 1 - |agent.coherence - field.coherence| then
        (1 - |agent.coherence - field.coherence|) *
          (1 - |agent.dissonance - field.dissonance|)
      else 0) ∧
    (0.7 < (calculateInterference agent field).harmonicCoupling →
      (calculateInterference agent field).phase = Phase.resonant) ∧
    (0.7 < (calculateInterference agent field).interferenceScore →
      (calculateInterference agent field).phase = Phase.dissonant) ∧
    ((calculateInterference agent field).harmonicCoupling ≤ 0.7 →
      (calculateInterference agent field).interferenceScore ≤ 0.7 →
      (calculateInterference agent field).phase = Phase.neutral) ∧
    calculateInterference ⟨0.9, 0.1⟩ ⟨0.9, 0.1⟩ =
      ⟨1, 0, 1, Phase.resonant⟩ := by
  refine ⟨rfl, rfl, rfl, ?_, ?_, ?_, ?_⟩
  · intro h
    simp only [calculateInterference] at h ⊢
    rw [if_pos h]
  · intro h
    simp only [calculateInterference] at h ⊢
    have hnc : ¬ (0.7 : ℚ) <
        (if 0.8 < 1 - |agent.coherence - field.coherence| then
          (1 - |agent.coherence - field.coherence|) *
            (1 - |agent.dissonance - field.dissonance|)
        else 0) := by
      split_ifs with h8
      · have hint_le : |agent.dissonance - field.dissonance| ≤ 1 := by
          rw [abs_le]
          constructor <;> linarith
        have hal_le : 1 - |agent.coherence - field.coherence| ≤ 1 := by
          linarith [abs_nonneg (agent.coherence - field.coherence)]
        have h1i : 0 ≤ 1 - |agent.dissonance - field.dissonance| := by linarith
        have hmul : (1 - |agent.coherence - field.coherence|) *
            (1 - |agent.dissonance - field.dissonance|) ≤
            1 * (1 - |agent.dissonance - field.dissonance|) :=
          mul_le_mul_of_nonneg_right hal_le h1i
        intro hcontra
        linarith
      · intro hcontra
        linarith
    rw [if_neg hnc, if_pos h]
  · intro h1 h2
    simp only [calculateInterference] at h1 h2 ⊢
    rw [if_neg (not_lt.mpr h1), if_neg (not_lt.mpr h2)]
  · norm_num [calculateInterference]

/-- Witness for C5 at the spec's concrete identical agent/field states. -/
theorem c5_interference_correct_witness :
    calculateInterference ⟨0.9, 0.1⟩ ⟨0.9, 0.1⟩ = ⟨1, 0, 1, Phase.resonant⟩ :=
  (c5_interference_correct ⟨0.9, 0.1⟩ ⟨0.9, 0.1⟩ (by norm_num) (by norm_num)
    (by norm_num) (by norm_num) (by norm_num) (by norm_num) (by norm_num)
    (by norm_num)).2.2.2.2.2.2

/-! ## C6: association-list lemmas -/

theorem mapLookup_mapSet_self {β : Type} (m : List (String × β)) (k : String) (v : β) :
    mapLookup (mapSet m k v) k = some v := by
  induction m with
  | nil => simp [mapSet, mapLookup]
  | cons p rest ih =>
    obtain ⟨k', v'⟩ := p
    by_cases h : k' = k
    · simp [mapSet, mapLookup, h]
    · simp [mapSet, mapLookup, h, ih]

theorem mapLookup_mapSet_ne {β : Type} (m : List (String × β)) {k k' : String} (v : β)
    (h : k' ≠ k) : mapLookup (mapSet m k v) k' = mapLookup m k' := by
  induction m with
  | nil => simp [mapSet, mapLookup, Ne.symm h]
  | cons p rest ih =>
    obtain ⟨k₁, v₁⟩ := p
    by_cases h1 : k₁ = k
    · subst h1
      simp [mapSet, mapLookup, Ne.symm h]
    · simp only [mapSet, if_neg h1]
      by_cases h2 : k₁ = k'
      · simp [mapLookup, h2]
      · simp [mapLookup, h2, ih]

theorem mapLookup_mem {β : Type} {m : List (String × β)} {k : String} {v : β}
    (h : mapLookup m k = some v) : (k, v) ∈ m := by
  induction m with
  | nil => simp [mapLookup] at h
  | cons p rest ih =>
    obtain ⟨k', v'⟩ := p
    simp only [mapLookup] at h
    split_ifs at h with hk
    · simp only [Option.some_inj] at h
      subst hk
      subst h
      exact List.mem_cons_self _ _
    · exact List.mem_cons_of_mem _ (ih h)

theorem mem_mapSet_cases {β : Type} {m : List (String × β)} {k : String} {v : β}
    {p : String × β} (hp : p ∈ mapSet m k v) : p ∈ m ∨ p.2 = v := by
  induction m with
  | nil =>
    simp only [mapSet, List.mem_singleton] at hp
    subst hp
    exact Or.inr rfl
  | cons q rest ih =>
    obtain ⟨k', v'⟩ := q
    simp only [mapSet] at hp
    split_ifs at hp with hk
    · rcases List.mem_cons.mp hp with rfl | hrest
      · exact Or.inr rfl
      · exact Or.inl (List.mem_cons_of_mem _ hrest)
    · rcases List.mem_cons.mp hp with rfl | hrest
      · exact Or.inl (List.mem_cons_self _ _)
      · rcases ih hrest with h | h
        · exact Or.inl (List.mem_cons_of_mem _ h)
        · exact Or.inr h

theorem mapSet_keys {β : Type} (m : List (String × β)) (k : String) (v : β) :
    (mapSet m k v).map Prod.fst =
      if k ∈ m.map Prod.fst then m.map Prod.fst else m.map Prod.fst ++ [k] := by
  induction m with
  | nil => simp [mapSet]
  | cons p rest ih =>
    obtain ⟨k', v'⟩ := p
    by_cases h : k' = k
    · subst h
      simp [mapSet]
    · simp only [mapSet, if_neg h, List.map_cons, ih, List.mem_cons]
      by_cases h2 : k ∈ rest.map Prod.fst
      · simp [h2, Ne.symm h]
      · simp [h2, Ne.symm h]

theorem mapSet_keys_nodup {β : Type} {m : List (String × β)} (k : String) (v : β)
    (h : (m.map Prod.fst).Nodup) : ((mapSet m k v).map Prod.fst).Nodup := by
  rw [mapSet_keys]
  split_ifs with hmem
  · exact h
  · rw [List.nodup_append]
    exact ⟨h, List.nodup_singleton k, fun a ha hb => by
      simp only [List.mem_singleton] at hb
      subst hb
      exact hmem ha⟩

/-! ## C6: applyMarker lemmas -/

theorem applyMarker_lookup_some {sig : SigMap} {now : ℕ} {marker : SymbolicMarker}
    {cur : SymbolicStateEntry} (h : mapLookup sig marker.symbol = some cur) :
    mapLookup (applyMarker sig now marker) marker.symbol =
      some ⟨cur.strength * 0.8 + marker.strength * 0.2,
        if cur.strength < cur.strength * 0.8 + marker.strength * 0.2 then Trend.increasing
        else if cur.strength * 0.8 + marker.strength * 0.2 < cur.strength then Trend.decreasing
        else Trend.stable, now⟩ := by
  unfold applyMarker
  rw [h]
  exact mapLookup_mapSet_self _ _ _

theorem applyMarker_lookup_none {sig : SigMap} {now : ℕ} {marker : SymbolicMarker}
    (h : mapLookup sig marker.symbol = none) :
    mapLookup (applyMarker sig now marker) marker.symbol =
      some ⟨marker.strength, Trend.emerging, now⟩ := by
  unfold applyMarker
  rw [h]
  exact mapLookup_mapSet_self _ _ _

theorem applyMarker_lookup_ne {sig : SigMap} {now : ℕ} {marker : SymbolicMarker}
    {k : String} (h : k ≠ marker.symbol) :
    mapLookup (applyMarker sig now marker) k = mapLookup sig k := by
  unfold applyMarker
  cases hlk : mapLookup sig marker.symbol with
  | some cur => exact mapLookup_mapSet_ne _ _ h
  | none => exact mapLookup_mapSet_ne _ _ h

theorem foldl_applyMarker_lookup_ne :
    ∀ (markers : List SymbolicMarker) (sig : SigMap) (now : ℕ) (k : String),
      (∀ m ∈ markers, m.symbol ≠ k) →
      mapLookup (markers.foldl (fun s m => applyMarker s now m) sig) k = mapLookup sig k := by
  intro markers
  induction markers with
  | nil => intro sig now k _; rfl
  | cons m0 rest ih =>
    intro sig now k hne
    rw [List.foldl_cons,
      ih (applyMarker sig now m0) now k (fun m hm => hne m (List.mem_cons_of_mem _ hm)),
      applyMarker_lookup_ne (Ne.symm (hne m0 (List.mem_cons_self _ _)))]

theorem foldl_applyMarker_lookup_mem_some :
    ∀ (markers : List SymbolicMarker) (sig : SigMap) (now : ℕ) (m : SymbolicMarker)
      (cur : SymbolicStateEntry),
      (markers.map fun x => x.symbol).Nodup → m ∈ markers →
      mapLookup sig m.symbol = some cur →
      mapLookup (markers.foldl (fun s x => applyMarker s now x) sig) m.symbol =
        some ⟨cur.strength * 0.8 + m.strength * 0.2,
          if cur.strength < cur.strength * 0.8 + m.strength * 0.2 then Trend.increasing
          else if cur.strength * 0.8 + m.strength * 0.2 < cur.strength then Trend.decreasing
          else Trend.stable, now⟩ := by
  intro markers
  induction markers with
  | nil => intro sig now m cur _ hm; exact absurd hm (List.not_mem_nil m)
  | cons m0 rest ih =>
    intro sig now m cur hnd hm hlk
    rw [List.map_cons, List.nodup_cons] at hnd
    rw [List.foldl_cons]
    rcases List.mem_cons.mp hm with rfl | hmrest
    · have hrest_ne : ∀ x ∈ rest, x.symbol ≠ m.symbol := by
        intro x hx heq
        exact hnd.1 (heq ▸ List.mem_map_of_mem _ hx)
      rw [foldl_applyMarker_lookup_ne rest _ now m.symbol hrest_ne]
      exact applyMarker_lookup_some hlk
    · have hne : m.symbol ≠ m0.symbol := by
        intro heq
        exact hnd.1 (heq ▸ List.mem_map_of_mem _ hmrest)
      exact ih (applyMarker sig now m0) now m cur hnd.2 hmrest
        ((applyMarker_lookup_ne hne).trans hlk)

theorem foldl_applyMarker_lookup_mem_none :
    ∀ (markers : List SymbolicMarker) (sig : SigMap) (now : ℕ) (m : SymbolicMarker),
      (markers.map fun x => x.symbol).Nodup → m ∈ markers →
      mapLookup sig m.symbol = none →
      mapLookup (markers.foldl (fun s x => applyMarker s now x) sig) m.symbol =
        some ⟨m.strength, Trend.emerging, now⟩ := by
  intro markers
  induction markers with
  | nil => intro sig now m _ hm; exact absurd hm (List.not_mem_nil m)
  | cons m0 rest ih =>
    intro sig now m hnd hm hlk
    rw [List.map_cons, List.nodup_cons] at hnd
    rw [List.foldl_cons]
    rcases List.mem_cons.mp hm with rfl | hmrest
    · have hrest_ne : ∀ x ∈ rest, x.symbol ≠ m.symbol := by
        intro x hx heq
        exact hnd.1 (heq ▸ List.mem_map_of_mem _ hx)
      rw [foldl_applyMarker_lookup_ne rest _ now m.symbol hrest_ne]
      exact applyMarker_lookup_none hlk
    · have hne : m.symbol ≠ m0.symbol := by
        intro heq
        exact hnd.1 (heq ▸ List.mem_map_of_mem _ hmrest)
      exact ih (applyMarker sig now m0) now m hnd.2 hmrest
        ((applyMarker_lookup_ne hne).trans hlk)

/-! ## C6: decay-pass lemmas -/

theorem mem_keys_decaySignature {sig : SigMap} {markers : List SymbolicMarker}
    {now : ℕ} {k : String}
    (hk : k ∈ (decaySignature sig markers now).map Prod.fst) :
    k ∈ sig.map Prod.fst := by
  simp only [List.mem_map] at hk ⊢
  obtain ⟨p, hp, hpk⟩ := hk
  obtain ⟨q, hq, hfq⟩ := List.mem_filterMap.mp hp
  refine ⟨q, hq, ?_⟩
  dsimp only at hfq
  split_ifs at hfq with h1 h2
  · simp only [Option.some_inj] at hfq
    rw [hfq]
    exact hpk
  · simp only [Option.some_inj] at hfq
    rw [← hfq] at hpk
    exact hpk

theorem mapLookup_eq_none_of_not_mem {β : Type} {m : List (String × β)} {k : String}
    (h : k ∉ m.map Prod.fst) : mapLookup m k = none :=
  (mapLookup_eq_none_iff m k).mpr h

theorem mapLookup_cons {β : Type} (k' : String) (v : β) (rest : List (String × β))
    (k : String) :
    mapLookup ((k', v) :: rest) k = if k' = k then some v else mapLookup rest k := rfl

theorem decaySignature_cons (k' : String) (e : SymbolicStateEntry) (rest : SigMap)
    (markers : List SymbolicMarker) (now : ℕ) :
    decaySignature ((k', e) :: rest) markers now =
      (if (markers.any fun m => m.symbol == k') = true then
        (k', e) :: decaySignature rest markers now
      else if e.strength * 0.98 < 0.05 then decaySignature rest markers now
      else (k', ⟨e.strength * 0.98, Trend.decreasing, now⟩) :: decaySignature rest markers now) := by
  simp only [decaySignature, List.filterMap_cons]
  split_ifs with h1 h2 <;> rfl

theorem decaySignature_lookup_present :
    ∀ (sig : SigMap) (markers : List SymbolicMarker) (now : ℕ) (k : String),
      (markers.any fun m => m.symbol == k) = true →
      mapLookup (decaySignature sig markers now) k = mapLookup sig k := by
  intro sig markers now k hany
  induction sig with
  | nil => rfl
  | cons p rest ih =>
    obtain ⟨k', e⟩ := p
    rw [decaySignature_cons]
    by_cases hk : k' = k
    · subst hk
      rw [if_pos hany, mapLookup_cons, mapLookup_cons, if_pos rfl, if_pos rfl]
    · split_ifs with h1 h2
      · rw [mapLookup_cons, mapLookup_cons, if_neg hk, if_neg hk]
        exact ih
      · rw [mapLookup_cons, if_neg hk]
        exact ih
      · rw [mapLookup_cons, mapLookup_cons, if_neg hk, if_neg hk]
        exact ih

theorem decaySignature_lookup_absent_some :
    ∀ (sig : SigMap) (markers : List SymbolicMarker) (now : ℕ) (k : String)
      (e : SymbolicStateEntry),
      (sig.map Prod.fst).Nodup →
      (markers.any fun m => m.symbol == k) = false →
      mapLookup sig k = some e →
      mapLookup (decaySignature sig markers now) k =
        (if e.strength * 0.98 < 0.05 then none
         else some ⟨e.strength * 0.98, Trend.decreasing, now⟩) := by
  intro sig
  induction sig with
  | nil => intro markers now k e _ _ hlk; simp [mapLookup] at hlk
  | cons p rest ih =>
    intro markers now k e hnd hany hlk
    obtain ⟨k', e'⟩ := p
    rw [List.map_cons, List.nodup_cons] at hnd
    rw [decaySignature_cons]
    by_cases hk : k' = k
    · subst hk
      have he : e' = e := by
        rw [mapLookup_cons, if_pos rfl, Option.some_inj] at hlk
        exact hlk
      subst he
      rw [if_neg (by rw [hany]; exact Bool.false_ne_true)]
      split_ifs with hs
      · apply mapLookup_eq_none_of_not_mem
        intro hmem
        exact hnd.1 (mem_keys_decaySignature hmem)
      · rw [mapLookup_cons, if_pos rfl]
    · have hlk' : mapLookup rest k = some e := by
        rw [mapLookup_cons, if_neg hk] at hlk
        exact hlk
      have hrec := ih markers now k e hnd.2 hany hlk'
      rw [← hrec]
      split_ifs with h1 h2
      · rw [mapLookup_cons, if_neg hk]
      · rfl
      · rw [mapLookup_cons, if_neg hk]

theorem applyMarker_keys_nodup {sig : SigMap} {now : ℕ} {marker : SymbolicMarker}
    (h : (sig.map Prod.fst).Nodup) :
    ((applyMarker sig now marker).map Prod.fst).Nodup := by
  unfold applyMarker
  cases mapLookup sig marker.symbol with
  | some cur => exact mapSet_keys_nodup _ _ h
  | none => exact mapSet_keys_nodup _ _ h

theorem foldl_applyMarker_keys_nodup :
    ∀ (markers : List SymbolicMarker) (sig : SigMap) (now : ℕ),
      (sig.map Prod.fst).Nodup →
      (((markers.foldl (fun s m => applyMarker s now m) sig).map Prod.fst)).Nodup := by
  intro markers
  induction markers with
  | nil => intro sig now h; exact h
  | cons m0 rest ih =>
    intro sig now h
    exact ih (applyMarker sig now m0) now (applyMarker_keys_nodup h)

/-- C6: `_updateSymbolicSignature` on a marker list with distinct symbols.
Each observed symbol already tracked is blended to
`0.8*old + 0.2*observed` with the increasing/decreasing/stable trend rule;
each observed symbol not yet tracked is inserted at the observed strength with
trend `emerging`; every tracked symbol absent from the marker list decays by
`*0.98` and is deleted exactly when the result drops below 0.05, else kept
with trend `decreasing`. -/
theorem c6_symbolic_signature_update (sig : SigMap) (markers : List SymbolicMarker)
    (now : ℕ) (hsig : (sig.map Prod.fst).Nodup)
    (hnd : (markers.map fun m => m.symbol).Nodup) :
    (∀ m ∈ markers, ∀ cur, mapLookup sig m.symbol = some cur →
      mapLookup (updateSymbolicSignature sig markers now) m.symbol =
        some ⟨cur.strength * 0.8 + m.strength * 0.2,
          if cur.strength < cur.strength * 0.8 + m.strength * 0.2 then Trend.increasing
          else if cur.strength * 0.8 + m.strength * 0.2 < cur.strength then Trend.decreasing
          else Trend.stable, now⟩) ∧
    (∀ m ∈ markers, mapLookup sig m.symbol = none →
      mapLookup (updateSymbolicSignature sig markers now) m.symbol =
        some ⟨m.strength, Trend.emerging, now⟩) ∧
    (∀ k : String, (∀ m ∈ markers, m.symbol ≠ k) →
      ∀ cur, mapLookup sig k = some cur →
      mapLookup (updateSymbolicSignature sig markers now) k =
        (if cur.strength * 0.98 < 0.05 then none
         else some ⟨cur.strength * 0.98, Trend.decreasing, now⟩)) := by
  refine ⟨?_, ?_, ?_⟩
  · intro m hm cur hcur
    have hany : (markers.any fun x => x.symbol == m.symbol) = true :=
      List.any_eq_true.mpr ⟨m, hm, by simp⟩
    unfold updateSymbolicSignature
    rw [decaySignature_lookup_present _ _ _ _ hany]
    exact foldl_applyMarker_lookup_mem_some markers sig now m cur hnd hm hcur
  · intro m hm hcur
    have hany : (markers.any fun x => x.symbol == m.symbol) = true :=
      List.any_eq_true.mpr ⟨m, hm, by simp⟩
    unfold updateSymbolicSignature
    rw [decaySignature_lookup_present _ _ _ _ hany]
    exact foldl_applyMarker_lookup_mem_none markers sig now m hnd hm hcur
  · intro k hne cur hcur
    have hany : (markers.any fun x => x.symbol == k) = false := by
      rw [List.any_eq_false]
      intro x hx
      simpa using hne x hx
    unfold updateSymbolicSignature
    exact decaySignature_lookup_absent_some _ markers now k cur
      (foldl_applyMarker_keys_nodup markers sig now hsig) hany
      ((foldl_applyMarker_lookup_ne markers sig now k
        (fun m hm => hne m hm)).trans hcur)

/-- Witness for C6: blending the tracked symbol `harmony` with an observed
marker of strength 0.6. -/
theorem c6_symbolic_signature_update_witness :
    mapLookup (updateSymbolicSignature [("harmony", ⟨0.1, Trend.stable, 0⟩)]
        [⟨"harmony", 0.6⟩] 1) "harmony" =
      some ⟨(0.1 : ℚ) * 0.8 + 0.6 * 0.2,
        if (0.1 : ℚ) < 0.1 * 0.8 + 0.6 * 0.2 then Trend.increasing
        else if (0.1 : ℚ) * 0.8 + 0.6 * 0.2 < 0.1 then Trend.decreasing
        else Trend.stable, 1⟩ :=
  (c6_symbolic_signature_update [("harmony", ⟨0.1, Trend.stable, 0⟩)]
      [⟨"harmony", 0.6⟩] 1 (by simp) (by simp)).1
    ⟨"harmony", 0.6⟩ (List.mem_singleton.mpr rfl) ⟨0.1, Trend.stable, 0⟩ rfl

/-! ## C7 -/

theorem extractSymbolicMarkers_strength (intent : IntentObs) :
    ∀ m ∈ extractSymbolicMarkers intent, (0.3 : ℚ) ≤ m.strength := by
  have htext : ∀ (bs : List Bool) (x : SymbolicMarker),
      x ∈ ((symbolPatterns.zip bs).filterMap fun pm =>
        if pm.2 then some ⟨pm.1.1, pm.1.2⟩ else none) → (0.3 : ℚ) ≤ x.strength := by
    intro bs x hx
    obtain ⟨pm, hpm, hfpm⟩ := List.mem_filterMap.mp hx
    obtain ⟨⟨psym, pstr⟩, pb⟩ := pm
    dsimp only at hfpm
    split_ifs at hfpm
    · rw [Option.some_inj] at hfpm
      subst hfpm
      have hmem : (psym, pstr) ∈ symbolPatterns := (List.of_mem_zip hpm).1
      dsimp only
      fin_cases hmem <;> norm_num
  intro m hm
  obtain ⟨text?, type?⟩ := intent
  cases text? with
  | none =>
    cases type? with
    | none =>
      simp only [extractSymbolicMarkers] at hm
      split_ifs at hm
      · rw [List.mem_singleton] at hm
        subst hm
        norm_num
      · simp at hm
    | some t =>
      simp only [extractSymbolicMarkers] at hm
      split_ifs at hm with he
      · simp at he
      · rw [List.nil_append, List.mem_singleton] at hm
        subst hm
        norm_num
  | some bs =>
    cases type? with
    | none =>
      simp only [extractSymbolicMarkers] at hm
      split_ifs at hm
      · rw [List.mem_singleton] at hm
        subst hm
        norm_num
      · exact htext bs m hm
    | some t =>
      simp only [extractSymbolicMarkers] at hm
      split_ifs at hm with he
      · simp at he
      · rcases List.mem_append.mp hm with h | h
        · exact htext bs m h
        · rw [List.mem_singleton] at h
          subst h
          norm_num

theorem applyMarker_strength {sig : SigMap} {now : ℕ} {marker : SymbolicMarker}
    (hsig : ∀ p ∈ sig, (0.05 : ℚ) ≤ p.2.strength)
    (hm : (0.05 : ℚ) ≤ marker.strength) :
    ∀ p ∈ applyMarker sig now marker, (0.05 : ℚ) ≤ p.2.strength := by
  intro p hp
  unfold applyMarker at hp
  cases hlk : mapLookup sig marker.symbol with
  | some cur =>
    simp only [hlk] at hp
    rcases mem_mapSet_cases hp with h | h
    · exact hsig p h
    · have hcur : (0.05 : ℚ) ≤ cur.strength := hsig _ (mapLookup_mem hlk)
      rw [h]
      dsimp only
      linarith
  | none =>
    simp only [hlk] at hp
    rcases mem_mapSet_cases hp with h | h
    · exact hsig p h
    · rw [h]
      exact hm

theorem foldl_applyMarker_strength :
    ∀ (markers : List SymbolicMarker) (sig : SigMap) (now : ℕ),
      (∀ p ∈ sig, (0.05 : ℚ) ≤ p.2.strength) →
      (∀ m ∈ markers, (0.05 : ℚ) ≤ m.strength) →
      ∀ p ∈ markers.foldl (fun s m => applyMarker s now m) sig,
        (0.05 : ℚ) ≤ p.2.strength := by
  intro markers
  induction markers with
  | nil => intro sig now hsig _; exact hsig
  | cons m0 rest ih =>
    intro sig now hsig hmk
    exact ih (applyMarker sig now m0) now
      (applyMarker_strength hsig (hmk m0 (List.mem_cons_self _ _)))
      (fun m hm => hmk m (List.mem_cons_of_mem _ hm))

theorem decaySignature_strength (sig : SigMap) (markers : List SymbolicMarker) (now : ℕ)
    (hsig : ∀ p ∈ sig, (0.05 : ℚ) ≤ p.2.strength) :
    ∀ p ∈ decaySignature sig markers now, (0.05 : ℚ) ≤ p.2.strength := by
  intro p hp
  obtain ⟨q, hq, hfq⟩ := List.mem_filterMap.mp hp
  dsimp only at hfq
  split_ifs at hfq with h1 h2
  · rw [Option.some_inj] at hfq
    subst hfq
    exact hsig q hq
  · rw [Option.some_inj] at hfq
    subst hfq
    dsimp only
    push_neg at h2
    exact h2

/-- C7: every symbolic-signature state reachable through the engine
(initialization followed by `_updateSymbolicSignature` steps on extracted
markers) keeps every retained entry at strength at least 0.05: entries that
fall below 0.05 are pruned, never retained at or near zero. -/
theorem c7_low_strength_pruned (s : SigMap) (h : ReachableSig s) :
    ∀ p ∈ s, (0.05 : ℚ) ≤ p.2.strength := by
  induction h with
  | init now =>
    intro p hp
    simp only [initialSymbolicSignature, List.mem_cons, List.mem_singleton,
      List.not_mem_nil, or_false] at hp
    rcases hp with rfl | rfl | rfl | rfl | rfl | rfl | rfl
    all_goals norm_num
  | step s intent now hs ih =>
    intro p hp
    have hmk : ∀ m ∈ extractSymbolicMarkers intent, (0.05 : ℚ) ≤ m.strength :=
      fun m hm => le_trans (by norm_num) (extractSymbolicMarkers_strength intent m hm)
    exact decaySignature_strength _ _ _
      (foldl_applyMarker_strength _ _ _ ih hmk) p hp

/-- Witness for C7 at the freshly initialized signature. -/
theorem c7_low_strength_pruned_witness :
    (0.05 : ℚ) ≤ (SymbolicStateEntry.mk 0.1 Trend.stable 0).strength :=
  c7_low_strength_pruned (initialSymbolicSignature 0) (ReachableSig.init 0)
    ("harmony", ⟨0.1, Trend.stable, 0⟩) (by simp [initialSymbolicSignature])

end IntentSim
